import Mathlib

/-!
Verification development for the `fraczal` fractal renderer.

The Rust source is shallowly embedded as follows.

* `f64` values are idealized as real numbers (`ℝ`).  Where a computation is
  exact over the rationals (the escape-time loop on the concrete inputs of
  interest, and the pixel-to-plane affine map) we use `ℚ` so that statements
  are decidable and can be checked by evaluation.
* Code paths in which IEEE-754 special values (infinities, NaN) are
  significant — the palette-trajectory chroma computation — are embedded over
  `Fp`, the reals extended with signed infinities and a NaN element, with the
  IEEE semantics of the arithmetic and comparison operators on those values.
* The one-ULP-tolerant comparison `approx_eq(x, 0.0, MARGIN)` (with
  `MARGIN = { epsilon: 0.0, ulps: 1 }`) is modelled over `ℝ` by
  `|x| ≤ 2 ^ (-1074 : ℤ)`: the `f64` values within one unit in the last place
  of `+0.0` are exactly `0`, `-0.0` and `±2⁻¹⁰⁷⁴` (the subnormals of smallest
  magnitude).  The same margin applied to two general finite values is
  idealized as exact equality of the corresponding reals.
-/

namespace Fraczal

/-- Embedding of `num::Complex<f64>`, with exact rational components
(used for the escape-time loop and the plane mapper, whose claims involve
only arithmetic that is exact in `f64` at the inputs considered). -/
structure Cplx where
  re : ℚ
  im : ℚ
deriving DecidableEq

/-- Complex addition. -/
def Cplx.add (z w : Cplx) : Cplx := ⟨z.re + w.re, z.im + w.im⟩

/-- Complex multiplication. -/
def Cplx.mul (z w : Cplx) : Cplx :=
  ⟨z.re * w.re - z.im * w.im, z.re * w.im + z.im * w.re⟩

/-- Embedding of `Complex::norm_sqr`: the squared magnitude `re² + im²`. -/
def Cplx.norm_sqr (z : Cplx) : ℚ := z.re * z.re + z.im * z.im

/-- The loop body of `iterate_point` (src/main.rs, lines 21–30).
`for i in 0..num_iter { if z.norm_sqr() > 4.0 { return Some(i) } z = z.powf(2.0) + c }`
is rendered as structural recursion on the number of remaining iterations,
with `i` the loop counter.  `z.powf(2.0)` is `z²` (the `num` crate computes
the real power through polar form; at exponent `2.0` this is the complex
square). -/
def iterate_go (c : Cplx) : Cplx → ℕ → ℕ → Option ℕ
  | _, _, 0 => none
  | z, i, fuel + 1 =>
      if z.norm_sqr > 4 then some i
      else iterate_go c ((z.mul z).add c) (i + 1) fuel

/-- Embedding of `iterate_point` (src/main.rs, lines 21–30): iterate `z ← z² + c` from
`z = 0`; return `some i` at the first `i < num_iter` whose `z` has squared
magnitude strictly greater than `4`, and `none` if no escape occurs. -/
def iterate_point (c : Cplx) (num_iter : ℕ) : Option ℕ :=
  iterate_go c ⟨0, 0⟩ 0 num_iter

/-- Embedding of `ComplexBoundingBox` (src/main.rs, lines 34–37): upper-left vertex and
`(width, height)` extents in the complex plane. -/
structure ComplexBoundingBox where
  upper_left : Cplx
  dims : ℚ × ℚ

/-- Embedding of `ComplexBoundingBox::map_pixel_to_point` (src/main.rs, lines 51–60):
`re = upper_left.re + px * dims.0 / W`, `im = upper_left.im - py * dims.1 / H`.
Pixel coordinates and image dimensions are `u32`, embedded as `ℕ` and cast
into `ℚ`. -/
def ComplexBoundingBox.map_pixel_to_point (b : ComplexBoundingBox)
    (pixel : ℕ × ℕ) (image_dims : ℕ × ℕ) : Cplx :=
  ⟨b.upper_left.re + (pixel.1 : ℚ) * b.dims.1 / (image_dims.1 : ℚ),
   b.upper_left.im - (pixel.2 : ℚ) * b.dims.2 / (image_dims.2 : ℚ)⟩

/-!
### IEEE-extended reals

The palette-trajectory code exercises `f64` special values: dividing a
nonzero finite number by zero yields a signed infinity, `0.0 / 0.0` yields
NaN, and NaN propagates through arithmetic and makes every comparison false.
`Fp` embeds `f64` as the reals extended with those values.  Signed zeros are
not distinguished (the code produces only `+0.0` on the paths of interest),
and a finite value is an exact real (rounding is idealized away).
-/

/-- An `f64` value: a finite real, an infinity (`pos = true` for `+∞`),
or NaN. -/
inductive Fp where
  | finite (x : ℝ)
  | inf (pos : Bool)
  | nan

namespace Fp

/-- IEEE addition. -/
def add : Fp → Fp → Fp
  | finite x, finite y => finite (x + y)
  | finite _, inf s => inf s
  | inf s, finite _ => inf s
  | inf s, inf t => if s = t then inf s else nan
  | _, _ => nan

/-- IEEE subtraction. -/
def sub : Fp → Fp → Fp
  | finite x, finite y => finite (x - y)
  | finite _, inf s => inf (!s)
  | inf s, finite _ => inf s
  | inf s, inf t => if s = t then nan else inf s
  | _, _ => nan

open Classical in
/-- IEEE multiplication (`0 * ±∞ = NaN`). -/
noncomputable def mul : Fp → Fp → Fp
  | finite x, finite y => finite (x * y)
  | finite x, inf s => if x = 0 then nan else inf (s = decide (0 < x))
  | inf s, finite x => if x = 0 then nan else inf (s = decide (0 < x))
  | inf s, inf t => inf (s = t)
  | _, _ => nan

open Classical in
/-- IEEE division: a nonzero finite value divided by zero is a signed
infinity, `0 / 0` is NaN, and a finite value divided by an infinity is
zero. -/
noncomputable def div : Fp → Fp → Fp
  | finite x, finite y =>
      if y = 0 then (if x = 0 then nan else inf (decide (0 < x))) else finite (x / y)
  | finite _, inf _ => finite 0
  | inf s, finite y => inf (s = decide (0 ≤ y))
  | inf _, inf _ => nan
  | _, _ => nan

/-- IEEE `f64::abs`. -/
def abs : Fp → Fp
  | finite x => finite |x|
  | inf _ => inf true
  | nan => nan

/-- IEEE `f64::recip`, i.e. `1.0 / self`. -/
noncomputable def recip (a : Fp) : Fp := div (finite 1) a

/-- IEEE strict less-than: false whenever either operand is NaN. -/
def lt : Fp → Fp → Prop
  | finite x, finite y => x < y
  | finite _, inf s => s = true
  | inf s, finite _ => s = false
  | inf s, inf t => s = false ∧ t = true
  | _, _ => False

/-- IEEE strict greater-than. -/
def gt (a b : Fp) : Prop := lt b a

/-- Model of the `float_cmp` `approx_eq` test with `MARGIN = { epsilon: 0.0, ulps: 1 }`,
idealized over exact reals: one ULP of tolerance between two finite reals
collapses to equality; equal infinities compare equal (IEEE `==` holds for
them); NaN is approximately equal to nothing. -/
def approxEq : Fp → Fp → Prop
  | finite x, finite y => x = y
  | inf s, inf t => s = t
  | _, _ => False

open Classical in
/-- Model of `f64::powf`, on the cases the palette code reaches with its inputs in
range: `0^y = +∞` for `y < 0`, otherwise a nonnegative base gives the real
power (`Real.rpow`, which agrees with IEEE on `0^0 = 1` and `0^y = 0` for
`y > 0`).  A negative base is mapped to NaN (IEEE would allow integral
exponents there; no claim exercises that case), as is any non-finite
operand. -/
noncomputable def powf : Fp → Fp → Fp
  | finite x, finite y =>
      if x = 0 ∧ y < 0 then inf true
      else if 0 ≤ x then finite (x ^ y)
      else nan
  | _, _ => nan

end Fp

/-!
### The color pipeline (src/color/mod.rs)
-/

/-- Model of `MARGIN = F64Margin { epsilon: 0.0, ulps: 1 }` applied against `0.0`
(`self.L.approx_eq(0.0, MARGIN)` in `Luv::as_XYZ`): the `f64` values within
one ULP of `+0.0` are `0`, `-0.0` and the two subnormals of least magnitude
`±2⁻¹⁰⁷⁴`, so over `ℝ` the test is `|x| ≤ 2⁻¹⁰⁷⁴`. -/
def approxEqZero (x : ℝ) : Prop := |x| ≤ (2 : ℝ) ^ (-1074 : ℤ)

/-- Embedding of `PolarLuv` (src/color/mod.rs, lines 13–17): hue (degrees), chroma,
lightness. -/
structure PolarLuv where
  h : ℝ
  C : ℝ
  L : ℝ

/-- Embedding of `Luv` (src/color/mod.rs, lines 38–42). -/
structure Luv where
  L : ℝ
  u : ℝ
  v : ℝ

/-- Embedding of `XYZ` (src/color/mod.rs, lines 69–73). -/
structure XYZ where
  X : ℝ
  Y : ℝ
  Z : ℝ

/-- Embedding of `RGB` (src/color/mod.rs, lines 86–90). -/
structure RGB where
  R : ℝ
  G : ℝ
  B : ℝ

/-- Embedding of `sRGB` (src/color/mod.rs, lines 103–107). -/
structure sRGB where
  R : ℝ
  G : ℝ
  B : ℝ

/-- Embedding of `PolarLuv::as_Luv` (src/color/mod.rs, lines 20–26):
`u = C·cos(h in radians)`, `v = C·sin(h in radians)`, `L` unchanged
(`f64::to_radians` multiplies by `π/180`). -/
noncomputable def PolarLuv.as_Luv (c : PolarLuv) : Luv :=
  { L := c.L,
    u := c.C * Real.cos (c.h * (Real.pi / 180)),
    v := c.C * Real.sin (c.h * (Real.pi / 180)) }

/-- Embedding of `Luv::D65` (src/color/mod.rs, line 47). -/
noncomputable def Luv.D65 : Luv := { L := 100, u := 0.197829, v := 0.468332 }

open Classical in
/-- Embedding of `Luv::as_XYZ` (src/color/mod.rs, lines 49–65).  `powf(3.0)` is the cube
(exact for every real base at an integral exponent). -/
noncomputable def Luv.as_XYZ (c : Luv) : XYZ :=
  if approxEqZero c.L then { X := 0, Y := 0, Z := 0 }
  else
    let u_ := c.u / (13 * c.L) + Luv.D65.u
    let v_ := c.v / (13 * c.L) + Luv.D65.v
    let Y : ℝ := if 8 < c.L then ((c.L + 16) / 116) ^ (3 : ℕ)
                 else ((3 : ℝ) / 29) ^ (3 : ℕ) * c.L
    let X := Y * (9 * u_) / (4 * v_)
    let Z := Y * (12 - 3 * u_ - 20 * v_) / (4 * v_)
    { X := X, Y := Y, Z := Z }

/-- Embedding of `XYZ::as_RGB` (src/color/mod.rs, lines 76–82): the fixed XYZ-to-linear-RGB
matrix. -/
noncomputable def XYZ.as_RGB (c : XYZ) : RGB :=
  { R :=   3.240479 * c.X - 1.537150 * c.Y - 0.498535 * c.Z,
    G :=  -0.969256 * c.X + 1.875992 * c.Y + 0.041556 * c.Z,
    B :=   0.055648 * c.X - 0.204043 * c.Y + 1.057311 * c.Z }

open Classical in
/-- Embedding of `sRGB::transfer_function` (src/color/mod.rs, lines 110–116): the sRGB
piecewise gamma encoding. -/
noncomputable def sRGB.transfer_function (component : ℝ) : ℝ :=
  if 0.0031308 < component then 1.055 * component ^ ((1 : ℝ) / 2.4) - 0.055
  else 12.92 * component

/-- Embedding of `RGB::as_sRGB` (src/color/mod.rs, lines 93–99). -/
noncomputable def RGB.as_sRGB (c : RGB) : sRGB :=
  { R := sRGB.transfer_function c.R,
    G := sRGB.transfer_function c.G,
    B := sRGB.transfer_function c.B }

open Classical in
/-- Embedding of `confine_component_to_gamut` (src/color/mod.rs, lines 119–127): clamp to
`[0, 255]`. -/
noncomputable def confine_component_to_gamut (component : ℝ) : ℝ :=
  if component < 0 then 0
  else if 255 < component then 255
  else component

/-- The Rust numeric cast `f64 as u8`: truncate toward zero and saturate at
the bounds of `u8`.  On the nonnegative inputs produced by
`confine_component_to_gamut` this is the floor, capped at 255. -/
noncomputable def f64_as_u8 (x : ℝ) : ℕ := min 255 (Int.toNat ⌊x⌋)

/-- Embedding of `sRGB::as_image_Rgb` (src/color/mod.rs, lines 118–134): scale each
channel by 255, clamp, cast to a byte.  The byte triple is embedded as a
triple of naturals. -/
noncomputable def sRGB.as_image_Rgb (c : sRGB) : ℕ × ℕ × ℕ :=
  (f64_as_u8 (confine_component_to_gamut (c.R * 255)),
   f64_as_u8 (confine_component_to_gamut (c.G * 255)),
   f64_as_u8 (confine_component_to_gamut (c.B * 255)))

/-- Embedding of `PolarLuv::as_image_Rgb` (src/color/mod.rs, lines 28–34): the four-stage
pipeline. -/
noncomputable def PolarLuv.as_image_Rgb (c : PolarLuv) : ℕ × ℕ × ℕ :=
  c.as_Luv.as_XYZ.as_RGB.as_sRGB.as_image_Rgb

/-!
### The palette trajectory (src/color/palettes.rs)

The trajectory arithmetic is embedded over `Fp` because the chroma
computation can produce infinities and NaN (division by `Cmax - end.C` when
the two coincide, and `0/0` inside `triangular_trajectory` when the mixing
fraction is `0`).  The palette fields themselves are finite reals: they are
deserialized from JSON, which carries no non-finite numbers.
-/

/-- The `PolarLuv` color produced by `map_scalar_to_color`, with components
in the IEEE-extended reals (the chroma can be NaN). -/
structure PolarLuvF where
  h : Fp
  C : Fp
  L : Fp

/-- Embedding of `PolarLuvPalette` (src/color/palettes.rs, lines 11–17). -/
structure PolarLuvPalette where
  start : PolarLuv
  «end» : PolarLuv
  powerC : ℝ
  powerL : ℝ
  Cmax : Option ℝ

namespace PolarLuvPalette

/-- Embedding of `PolarLuvPalette::linear_trajectory` (src/color/palettes.rs, lines
20–22): `b - (b - a) * i` (so the value is `b` at `i = 0` and `a` at
`i = 1`). -/
noncomputable def linear_trajectory (i a b : Fp) : Fp :=
  b.sub ((b.sub a).mul i)

/-- Embedding of `lte_precise` (src/color/palettes.rs, lines 25–27):
`a < b || a.approx_eq(b, MARGIN)`. -/
def lte_precise (a b : Fp) : Prop := a.lt b ∨ a.approxEq b

open Classical in
/-- Embedding of `PolarLuvPalette::triangular_trajectory` (src/color/palettes.rs, lines
24–34). -/
noncomputable def triangular_trajectory (i j a b max : Fp) : Fp :=
  if lte_precise i j then linear_trajectory (i.div j) max b
  else linear_trajectory (((i.sub j).div ((Fp.finite 1).sub j)).abs) a max

/-- Lines 49–51 of `map_scalar_to_color`: the candidate chroma-mixing
fraction `j = (1 + |(Cmax − start.C)/(Cmax − end.C)|).recip()`, present
exactly when `Cmax` is configured. -/
noncomputable def mix_fraction_raw (p : PolarLuvPalette) : Option Fp :=
  p.Cmax.map fun Cmax =>
    ((Fp.finite 1).add
      (((Fp.finite (Cmax - p.start.C)).div (.finite (Cmax - p.«end».C))).abs)).recip

open Classical in
/-- Lines 53–55 of `map_scalar_to_color`: the validity test
`if j.is_some() && !(j.unwrap() > 0.0 || j.unwrap() < 1.0) { j = None }`,
rendered as a second `Option` value. -/
noncomputable def mix_fraction (p : PolarLuvPalette) : Option Fp :=
  match p.mix_fraction_raw with
  | some jv => if ¬(jv.gt (.finite 0) ∨ jv.lt (.finite 1)) then none else some jv
  | none => none

/-- Embedding of `PolarLuvPalette::map_scalar_to_color` (src/color/palettes.rs, lines
44–73), with the `j` computation factored into `mix_fraction_raw` and
`mix_fraction` above; `self.Cmax.unwrap()` inside the `Some` arm is
rendered as `Option.getD` (on that arm `Cmax` is necessarily a `some`). -/
noncomputable def map_scalar_to_color (p : PolarLuvPalette) (scalar : ℝ)
    (reverse : Bool) : PolarLuvF :=
  let i : ℝ := if reverse then 1 - scalar else scalar
  let h := linear_trajectory (.finite i) (.finite p.start.h) (.finite p.«end».h)
  let C : Fp :=
    match p.mix_fraction with
    | some jv =>
        triangular_trajectory ((Fp.finite i).powf (.finite p.powerC)) jv
          (.finite p.start.C) (.finite p.«end».C) (.finite (p.Cmax.getD 0))
    | none =>
        linear_trajectory ((Fp.finite i).powf (.finite p.powerC))
          (.finite p.start.C) (.finite p.«end».C)
  let L := linear_trajectory ((Fp.finite i).powf (.finite p.powerL))
    (.finite p.start.L) (.finite p.«end».L)
  { h := h, C := C, L := L }

end PolarLuvPalette

/-!
### Reduction lemmas for `Fp`
-/

namespace Fp

@[simp] theorem add_finite (x y : ℝ) : add (finite x) (finite y) = finite (x + y) := rfl

@[simp] theorem add_finite_inf (x : ℝ) (s : Bool) : add (finite x) (inf s) = inf s := rfl

@[simp] theorem sub_finite (x y : ℝ) : sub (finite x) (finite y) = finite (x - y) := rfl

@[simp] theorem sub_finite_nan (x : ℝ) : sub (finite x) nan = nan := rfl

@[simp] theorem mul_finite (x y : ℝ) : mul (finite x) (finite y) = finite (x * y) := rfl

@[simp] theorem mul_finite_nan (x : ℝ) : mul (finite x) nan = nan := rfl

@[simp] theorem abs_finite (x : ℝ) : (finite x).abs = finite |x| := rfl

@[simp] theorem abs_inf (s : Bool) : (inf s).abs = inf true := rfl

theorem div_finite_of_ne (x : ℝ) {y : ℝ} (hy : y ≠ 0) :
    div (finite x) (finite y) = finite (x / y) := by
  simp [div, hy]

theorem div_finite_zero_of_pos {x : ℝ} (hx : 0 < x) :
    div (finite x) (finite 0) = inf true := by
  simp [div, ne_of_gt hx, hx]

@[simp] theorem recip_inf (s : Bool) : (inf s).recip = finite 0 := rfl

theorem recip_finite {x : ℝ} (hx : x ≠ 0) : (finite x).recip = finite x⁻¹ := by
  simp [recip, div, hx, one_div]

@[simp] theorem lt_finite (x y : ℝ) : lt (finite x) (finite y) ↔ x < y := Iff.rfl

@[simp] theorem gt_finite (x y : ℝ) : gt (finite x) (finite y) ↔ y < x := Iff.rfl

@[simp] theorem approxEq_finite (x y : ℝ) : approxEq (finite x) (finite y) ↔ x = y := Iff.rfl

theorem powf_finite_of_nonneg {x y : ℝ} (hx : 0 ≤ x) (hy : 0 ≤ y) :
    powf (finite x) (finite y) = finite (x ^ y) := by
  have h1 : ¬(x = 0 ∧ y < 0) := by rintro ⟨-, h⟩; exact absurd hy (not_le.mpr h)
  simp [powf, h1, hx]

end Fp

@[simp] theorem PolarLuvPalette.lte_precise_finite (x y : ℝ) :
    PolarLuvPalette.lte_precise (.finite x) (.finite y) ↔ x ≤ y := by
  rw [le_iff_lt_or_eq]
  exact Iff.rfl

/-!
### The escape-time evaluator and plane mapper (claims C4, C5, C10)
-/

/-- If the escape loop reports an escape, the reported iteration lies
between the loop counter it started from and that counter plus the remaining
fuel. -/
theorem iterate_go_bounds {c z : Cplx} {i fuel k : ℕ}
    (h : iterate_go c z i fuel = some k) : i ≤ k ∧ k < i + fuel := by
  induction fuel generalizing z i with
  | zero => simp [iterate_go] at h
  | succ n ih =>
    rw [iterate_go] at h
    by_cases hc : z.norm_sqr > 4
    · rw [if_pos hc] at h
      cases h
      omega
    · rw [if_neg hc] at h
      obtain ⟨h1, h2⟩ := ih h
      omega

/-- Evaluation of the escape loop at `c = 1 + 0i`: the iterates are
`0, 1, 2, 5`, whose squared magnitudes are `0, 1, 4, 25`; only the last
exceeds the strict bound `4`, at loop counter 3. -/
theorem iterate_point_one_eq (N : ℕ) (hN : 4 ≤ N) :
    iterate_point ⟨1, 0⟩ N = some 3 := by
  obtain ⟨m, rfl⟩ : ∃ m, N = m + 4 := ⟨N - 4, by omega⟩
  show iterate_go _ ⟨0, 0⟩ 0 (m + 4) = some 3
  rw [iterate_go, if_neg (by norm_num [Cplx.norm_sqr]),
      iterate_go, if_neg (by norm_num [Cplx.norm_sqr, Cplx.mul, Cplx.add]),
      iterate_go, if_neg (by norm_num [Cplx.norm_sqr, Cplx.mul, Cplx.add]),
      iterate_go, if_pos (by norm_num [Cplx.norm_sqr, Cplx.mul, Cplx.add])]

/-- C4: for the point `1 + 0i` and every iteration cap of at least 4,
`iterate_point` reports an escape exactly at iteration 3.  The test is the
strict `norm_sqr > 4`, so the iterate `z = 2` (squared magnitude exactly 4)
does not yet count as escaped and a further step to `z = 5` is needed. -/
theorem claim_C4 (N : ℕ) (hN : 4 ≤ N) : iterate_point ⟨1, 0⟩ N = some 3 :=
  iterate_point_one_eq N hN

/-- Witness for C4 at the smallest admissible cap. -/
theorem claim_C4_witness : 4 ≤ 4 ∧ iterate_point ⟨1, 0⟩ 4 = some 3 :=
  ⟨le_refl 4, claim_C4 4 (le_refl 4)⟩

/-- C5: `map_pixel_to_point` computes the affine map
`re = upper_left.re + px·dx/W`, `im = upper_left.im − py·dy/H`; on the box
with upper-left `-1 + i` and extents `(2, 2)` over a 100×100 image, pixel
`(0, 0)` maps exactly to `-1 + i` and pixel `(100, 100)` maps exactly to
`1 - i`. -/
theorem claim_C5 :
    (∀ (b : ComplexBoundingBox) (px py W H : ℕ),
        b.map_pixel_to_point (px, py) (W, H) =
          ⟨b.upper_left.re + (px : ℚ) * b.dims.1 / (W : ℚ),
           b.upper_left.im - (py : ℚ) * b.dims.2 / (H : ℚ)⟩) ∧
    (ComplexBoundingBox.mk ⟨-1, 1⟩ (2, 2)).map_pixel_to_point (0, 0) (100, 100)
      = ⟨-1, 1⟩ ∧
    (ComplexBoundingBox.mk ⟨-1, 1⟩ (2, 2)).map_pixel_to_point (100, 100) (100, 100)
      = ⟨1, -1⟩ :=
  ⟨fun _ _ _ _ _ => rfl,
   by norm_num [ComplexBoundingBox.map_pixel_to_point, Cplx.mk.injEq],
   by norm_num [ComplexBoundingBox.map_pixel_to_point, Cplx.mk.injEq]⟩

/-- C10: `iterate_point` never reports an escape at iteration 0, and every
reported escape iteration is strictly below the cap: the loop tests
`z = 0` (squared magnitude `0`, not above `4`) before the first update, so
the first possible escape report is at counter 1. -/
theorem claim_C10 (c : Cplx) (N k : ℕ) (h : iterate_point c N = some k) :
    1 ≤ k ∧ k < N := by
  cases N with
  | zero => simp [iterate_point, iterate_go] at h
  | succ n =>
    rw [iterate_point, iterate_go, if_neg (by norm_num [Cplx.norm_sqr])] at h
    obtain ⟨h1, h2⟩ := iterate_go_bounds h
    omega

/-- Witness for C10 at the concrete escape `iterate_point (1 + 0i) 5 = some 3`. -/
theorem claim_C10_witness :
    iterate_point ⟨1, 0⟩ 5 = some 3 ∧ 1 ≤ 3 ∧ 3 < 5 :=
  ⟨iterate_point_one_eq 5 (by norm_num),
   claim_C10 ⟨1, 0⟩ 5 3 (iterate_point_one_eq 5 (by norm_num))⟩

/-!
### Characterizations of `map_scalar_to_color` (helpers for C1, C2, C6, C9)
-/

namespace PolarLuvPalette

/-- The hue produced by `map_scalar_to_color` is always the finite value
`end.h - (end.h - start.h) * i` with `i` the possibly reversed scalar. -/
theorem map_h_eq (p : PolarLuvPalette) (scalar : ℝ) (rev : Bool) :
    (p.map_scalar_to_color scalar rev).h =
      .finite (p.«end».h - (p.«end».h - p.start.h) *
        (if rev then 1 - scalar else scalar)) := rfl

/-- The lightness produced by `map_scalar_to_color`, when the (possibly
reversed) scalar and `powerL` are nonnegative, is the finite value
`end.L - (end.L - start.L) * i ^ powerL`. -/
theorem map_L_eq (p : PolarLuvPalette) (scalar : ℝ) (rev : Bool)
    (hi : 0 ≤ (if rev then 1 - scalar else scalar)) (hL : 0 ≤ p.powerL) :
    (p.map_scalar_to_color scalar rev).L =
      .finite (p.«end».L - (p.«end».L - p.start.L) *
        (if rev then 1 - scalar else scalar) ^ p.powerL) := by
  show (PolarLuvF.mk _ _ _).L = _
  simp only [PolarLuvF.mk.injEq]
  rw [Fp.powf_finite_of_nonneg hi hL]
  rfl

/-- The quotient `0.0 / 0.0` is NaN. -/
theorem div_zero_zero : Fp.div (.finite 0) (.finite 0) = Fp.nan := by
  simp [Fp.div]

/-- Dividing a nonzero finite value by zero gives an infinity, whose
absolute value is `+∞`. -/
theorem abs_div_finite_zero {x : ℝ} (hx : x ≠ 0) :
    (Fp.div (.finite x) (.finite 0)).abs = Fp.inf true := by
  simp [Fp.div, hx]

/-- When `Cmax = some M` and the denominator `M - end.C` is nonzero, the
raw mixing fraction is the finite real `(1 + |(M − start.C)/(M − end.C)|)⁻¹`. -/
theorem mix_fraction_raw_finite (p : PolarLuvPalette) (M : ℝ)
    (hM : p.Cmax = some M) (hden : M - p.«end».C ≠ 0) :
    p.mix_fraction_raw =
      some (.finite ((1 + |(M - p.start.C) / (M - p.«end».C)|)⁻¹)) := by
  have hsumne : (1 : ℝ) + |(M - p.start.C) / (M - p.«end».C)| ≠ 0 := by positivity
  simp only [mix_fraction_raw]
  rw [hM, Option.map_some', Fp.div_finite_of_ne _ hden, Fp.abs_finite, Fp.add_finite,
      Fp.recip_finite hsumne]

/-- When `Cmax = some M`, the denominator `M - end.C` is zero and the
numerator is not, the raw mixing fraction is `(1 + ∞).recip() = 0`. -/
theorem mix_fraction_raw_zero (p : PolarLuvPalette) (M : ℝ)
    (hM : p.Cmax = some M) (hzero : M - p.«end».C = 0)
    (hnum : M - p.start.C ≠ 0) :
    p.mix_fraction_raw = some (.finite 0) := by
  simp only [mix_fraction_raw]
  rw [hM, Option.map_some', hzero, abs_div_finite_zero hnum, Fp.add_finite_inf,
      Fp.recip_inf]

/-- The validity test keeps any finite raw fraction satisfying
`jv > 0 || jv < 1` — which is every real. -/
theorem mix_fraction_eq_of_raw (p : PolarLuvPalette) (jv : ℝ)
    (hraw : p.mix_fraction_raw = some (.finite jv)) (hor : 0 < jv ∨ jv < 1) :
    p.mix_fraction = some (.finite jv) := by
  simp only [mix_fraction]
  rw [hraw]
  exact if_neg (not_not_intro (by simpa using hor))

/-- Projection of the chroma component when the mixing fraction survives the
validity test: the triangular trajectory is used. -/
theorem map_C_eq_some (p : PolarLuvPalette) (scalar : ℝ) (rev : Bool)
    (jv : Fp) (h : p.mix_fraction = some jv) :
    (p.map_scalar_to_color scalar rev).C =
      triangular_trajectory
        ((Fp.finite (if rev then 1 - scalar else scalar)).powf (.finite p.powerC))
        jv (.finite p.start.C) (.finite p.«end».C) (.finite (p.Cmax.getD 0)) := by
  simp only [map_scalar_to_color]
  rw [h]

/-- Projection of the chroma component when no mixing fraction survives:
the unconstrained linear trajectory is used. -/
theorem map_C_eq_none (p : PolarLuvPalette) (scalar : ℝ) (rev : Bool)
    (h : p.mix_fraction = none) :
    (p.map_scalar_to_color scalar rev).C =
      linear_trajectory
        ((Fp.finite (if rev then 1 - scalar else scalar)).powf (.finite p.powerC))
        (.finite p.start.C) (.finite p.«end».C) := by
  simp only [map_scalar_to_color]
  rw [h]

/-- The chroma produced by `map_scalar_to_color` in the non-degenerate
triangular regime (`Cmax` configured and distinct from both endpoint
chromas): with `j = (1 + |(Cmax − start.C)/(Cmax − end.C)|)⁻¹` we have
`0 < j < 1`, the validity test keeps `j`, and the chroma follows the two
affine pieces of `triangular_trajectory`: from `end.C` (at `t = 0`) up to
`Cmax` (at `t = j`), then from `Cmax` down to `start.C` (at `t = 1`),
where `t = scalar ^ powerC`. -/
theorem map_C_triangular (p : PolarLuvPalette) (M : ℝ) (hM : p.Cmax = some M)
    (ha : M ≠ p.start.C) (hb : M ≠ p.«end».C) (scalar : ℝ)
    (hs : 0 ≤ scalar) (hpc : 0 ≤ p.powerC) :
    0 < (1 + |(M - p.start.C) / (M - p.«end».C)|)⁻¹ ∧
    (1 + |(M - p.start.C) / (M - p.«end».C)|)⁻¹ < 1 ∧
    (p.map_scalar_to_color scalar false).C =
      (if scalar ^ p.powerC ≤ (1 + |(M - p.start.C) / (M - p.«end».C)|)⁻¹ then
        .finite (p.«end».C - (p.«end».C - M) *
          (scalar ^ p.powerC / (1 + |(M - p.start.C) / (M - p.«end».C)|)⁻¹))
      else
        .finite (M - (M - p.start.C) *
          ((scalar ^ p.powerC - (1 + |(M - p.start.C) / (M - p.«end».C)|)⁻¹) /
            (1 - (1 + |(M - p.start.C) / (M - p.«end».C)|)⁻¹)))) := by
  set q : ℝ := (M - p.start.C) / (M - p.«end».C) with hq
  have hden : M - p.«end».C ≠ 0 := sub_ne_zero_of_ne hb
  have hnum : M - p.start.C ≠ 0 := sub_ne_zero_of_ne ha
  have hqne : q ≠ 0 := div_ne_zero hnum hden
  have habs : 0 < |q| := abs_pos.mpr hqne
  have hsum : (1 : ℝ) < 1 + |q| := by linarith
  have hjpos : 0 < (1 + |q|)⁻¹ := inv_pos.mpr (by linarith)
  have hjlt : (1 + |q|)⁻¹ < 1 := inv_lt_one_of_one_lt₀ hsum
  have hjne : (1 + |q|)⁻¹ ≠ 0 := ne_of_gt hjpos
  refine ⟨hjpos, hjlt, ?_⟩
  have hmix : p.mix_fraction = some (.finite ((1 + |q|)⁻¹)) :=
    mix_fraction_eq_of_raw p _ (mix_fraction_raw_finite p M hM hden) (Or.inl hjpos)
  rw [map_C_eq_some p scalar false _ hmix]
  simp only [if_false, Bool.false_eq_true]
  rw [hM, Option.getD_some, Fp.powf_finite_of_nonneg hs hpc, triangular_trajectory]
  by_cases ht : scalar ^ p.powerC ≤ (1 + |q|)⁻¹
  · rw [if_pos ((lte_precise_finite _ _).mpr ht), if_pos ht,
        Fp.div_finite_of_ne _ hjne]
    rfl
  · have hlt : (1 + |q|)⁻¹ < scalar ^ p.powerC := not_le.mp ht
    rw [if_neg ((not_congr (lte_precise_finite _ _)).mpr ht), if_neg ht,
        Fp.sub_finite, Fp.sub_finite,
        Fp.div_finite_of_ne _ (by linarith : 1 - (1 + |q|)⁻¹ ≠ 0), Fp.abs_finite,
        abs_of_nonneg (div_nonneg (by linarith) (by linarith))]
    rfl

/-- When `Cmax` coincides with the end chroma but not the start chroma, the
mixing fraction evaluates to `0` through the infinite intermediate
`|(Cmax − start.C)/0| = ∞`, the vacuous validity test keeps it, and at
`t = scalar ^ powerC = 0` the triangular branch computes `0/0`, so the
chroma is NaN. -/
theorem chroma_nan_of_Cmax_eq_end (p : PolarLuvPalette) (M : ℝ)
    (hM : p.Cmax = some M) (hMe : M = p.«end».C) (hMa : M ≠ p.start.C)
    (hpc : 0 < p.powerC) :
    (p.map_scalar_to_color 0 false).C = Fp.nan := by
  have hnum : M - p.start.C ≠ 0 := sub_ne_zero_of_ne hMa
  have hzero : M - p.«end».C = 0 := by rw [hMe]; ring
  have hmix : p.mix_fraction = some (.finite 0) :=
    mix_fraction_eq_of_raw p _ (mix_fraction_raw_zero p M hM hzero hnum)
      (Or.inr one_pos)
  rw [map_C_eq_some p 0 false _ hmix]
  simp only [if_false, Bool.false_eq_true]
  have hpow : (Fp.finite (0:ℝ)).powf (.finite p.powerC) = .finite 0 := by
    rw [Fp.powf_finite_of_nonneg le_rfl (le_of_lt hpc), Real.zero_rpow (ne_of_gt hpc)]
  rw [hpow, triangular_trajectory,
      if_pos ((lte_precise_finite _ _).mpr le_rfl), div_zero_zero]
  simp [linear_trajectory]

end PolarLuvPalette

/-!
### The color pipeline (claims C3, C7, C8)
-/

/-- C3: for every `Luv` color whose lightness is within the one-ULP margin
of `0.0` (not only exactly zero), `as_XYZ` returns exactly `(0, 0, 0)`; the
general branch with its divisions by `13·L` and by the degenerate chromaticity term is not taken. -/
theorem claim_C3 (c : Luv) (h : approxEqZero c.L) :
    c.as_XYZ = ⟨0, 0, 0⟩ := by
  rw [Luv.as_XYZ, if_pos h]

/-- Witness for C3 at the strictly positive lightness `2⁻¹⁰⁷⁴` (the nonzero
`f64` nearest `0`), showing the special case is not restricted to exact
zero. -/
theorem claim_C3_witness :
    (0 : ℝ) < (2 : ℝ) ^ (-1074 : ℤ) ∧
    approxEqZero ((2 : ℝ) ^ (-1074 : ℤ)) ∧
    (Luv.mk ((2 : ℝ) ^ (-1074 : ℤ)) 5 7).as_XYZ = ⟨0, 0, 0⟩ := by
  have hpos : (0 : ℝ) < (2 : ℝ) ^ (-1074 : ℤ) := by positivity
  have h : approxEqZero ((2 : ℝ) ^ (-1074 : ℤ)) := by
    show |(2 : ℝ) ^ (-1074 : ℤ)| ≤ (2 : ℝ) ^ (-1074 : ℤ)
    rw [abs_of_pos hpos]
  exact ⟨hpos, h, claim_C3 _ h⟩

/-- C7: at the final quantization stage each channel is scaled by 255,
clamped to `[0, 255]` and truncated: a scaled value below `0` gives byte
`0`, one above `255` gives byte `255`, an in-range value gives its floor,
and every component of the output triple is at most `255`. -/
theorem claim_C7 :
    (∀ x : ℝ, x * 255 < 0 →
        f64_as_u8 (confine_component_to_gamut (x * 255)) = 0) ∧
    (∀ x : ℝ, 255 < x * 255 →
        f64_as_u8 (confine_component_to_gamut (x * 255)) = 255) ∧
    (∀ x : ℝ, 0 ≤ x * 255 → x * 255 ≤ 255 →
        f64_as_u8 (confine_component_to_gamut (x * 255)) = Int.toNat ⌊x * 255⌋) ∧
    (∀ c : sRGB, c.as_image_Rgb.1 ≤ 255 ∧ c.as_image_Rgb.2.1 ≤ 255 ∧
        c.as_image_Rgb.2.2 ≤ 255) := by
  refine ⟨fun x h => ?_, fun x h => ?_, fun x h0 h1 => ?_, fun c => ?_⟩
  · rw [confine_component_to_gamut, if_pos h]
    norm_num [f64_as_u8]
  · rw [confine_component_to_gamut, if_neg (by linarith), if_pos h]
    norm_num [f64_as_u8]
  · rw [confine_component_to_gamut, if_neg (not_lt.mpr h0), if_neg (not_lt.mpr h1)]
    have hle : ⌊x * 255⌋ ≤ 255 := Int.floor_le_iff.mpr (by push_cast; linarith)
    have : Int.toNat ⌊x * 255⌋ ≤ 255 := by omega
    rw [f64_as_u8, min_eq_right this]
  · refine ⟨?_, ?_, ?_⟩ <;> simp [sRGB.as_image_Rgb, f64_as_u8]

/-- Witness for C7: an out-of-gamut negative channel clamps to byte `0` and
an out-of-gamut large channel clamps to byte `255`. -/
theorem claim_C7_witness :
    ((-1 : ℝ) * 255 < 0 ∧
      f64_as_u8 (confine_component_to_gamut ((-1 : ℝ) * 255)) = 0) ∧
    (255 < (2 : ℝ) * 255 ∧
      f64_as_u8 (confine_component_to_gamut ((2 : ℝ) * 255)) = 255) :=
  ⟨⟨by norm_num, claim_C7.1 (-1) (by norm_num)⟩,
   ⟨by norm_num, claim_C7.2.1 2 (by norm_num)⟩⟩

/-- C8: the cylindrical color `(hue 0, chroma 0, lightness 0)` maps through
the full four-stage pipeline to the byte triple `(0, 0, 0)`. -/
theorem claim_C8 : (PolarLuv.mk 0 0 0).as_image_Rgb = (0, 0, 0) := by
  have h1 : (PolarLuv.mk 0 0 0).as_Luv = ⟨0, 0, 0⟩ := by
    simp [PolarLuv.as_Luv]
  have hz : approxEqZero (Luv.mk 0 0 0).L := by
    show |(0 : ℝ)| ≤ (2 : ℝ) ^ (-1074 : ℤ)
    rw [abs_zero]
    positivity
  have h2 : (Luv.mk 0 0 0).as_XYZ = ⟨0, 0, 0⟩ := by
    rw [Luv.as_XYZ, if_pos hz]
  have h3 : (XYZ.mk 0 0 0).as_RGB = ⟨0, 0, 0⟩ := by
    simp [XYZ.as_RGB]
  have ht : sRGB.transfer_function 0 = 0 := by
    rw [sRGB.transfer_function, if_neg (by norm_num), mul_zero]
  have h4 : (RGB.mk 0 0 0).as_sRGB = ⟨0, 0, 0⟩ := by
    simp [RGB.as_sRGB, ht]
  rw [PolarLuv.as_image_Rgb, h1, h2, h3, h4]
  have hc : confine_component_to_gamut (0 : ℝ) = 0 := by
    rw [confine_component_to_gamut]
    norm_num
  simp [sRGB.as_image_Rgb, hc, f64_as_u8]

/-!
### The palette trajectory (claims C1, C2, C6, C9)
-/

/-- Counterexample to C1 as stated: in triangular mode with the valid split
point `j = 1/3` (palette `start.C = 10`, `end.C = 20`, `Cmax = 30`,
`powerC = 1`), at `t = 0` the chroma is `end.C = 20`, not `start.C = 10` as
the orientation stated in the claim requires. -/
theorem claim_C1_counterexample :
    ((PolarLuvPalette.mk ⟨0, 10, 0⟩ ⟨0, 20, 0⟩ 1 1 (some 30)).map_scalar_to_color
      0 false).C = .finite 20 ∧ Fp.finite (20 : ℝ) ≠ .finite (10 : ℝ) := by
  constructor
  · obtain ⟨-, -, hC⟩ :=
      PolarLuvPalette.map_C_triangular
        (PolarLuvPalette.mk ⟨0, 10, 0⟩ ⟨0, 20, 0⟩ 1 1 (some 30)) 30 rfl
        (by norm_num) (by norm_num) 0 le_rfl (by norm_num)
    rw [hC, if_pos (by rw [Real.rpow_one]; positivity)]
    norm_num [Real.rpow_one]
  · intro h
    have : (20 : ℝ) = 10 := Fp.finite.inj h
    norm_num at this

/-- C1 (amended): in triangular chroma mode with a valid split point `j`
(`Cmax` distinct from both endpoint chromas, so
`j = (1 + |(Cmax − start.C)/(Cmax − end.C)|)⁻¹` lies strictly in `(0,1)`),
for input `t = i^powerC`: when `t ≤ j` the chroma moves linearly from
`end.chroma` (at `t = 0`) to `Cmax` (at `t = j`); when `t > j` it moves
linearly from `Cmax` (at `t = j`) to `start.chroma` (at `t = 1`) — the
endpoint orientation stated in the claim is swapped, as the trajectory helpers
interpolate with the complement of their input. -/
theorem claim_C1 (p : PolarLuvPalette) (M : ℝ) (hM : p.Cmax = some M)
    (ha : M ≠ p.start.C) (hb : M ≠ p.«end».C) (scalar : ℝ)
    (hs : 0 ≤ scalar) (hpc : 0 ≤ p.powerC) :
    0 < (1 + |(M - p.start.C) / (M - p.«end».C)|)⁻¹ ∧
    (1 + |(M - p.start.C) / (M - p.«end».C)|)⁻¹ < 1 ∧
    (p.map_scalar_to_color scalar false).C =
      (if scalar ^ p.powerC ≤ (1 + |(M - p.start.C) / (M - p.«end».C)|)⁻¹ then
        .finite (p.«end».C - (p.«end».C - M) *
          (scalar ^ p.powerC / (1 + |(M - p.start.C) / (M - p.«end».C)|)⁻¹))
      else
        .finite (M - (M - p.start.C) *
          ((scalar ^ p.powerC - (1 + |(M - p.start.C) / (M - p.«end».C)|)⁻¹) /
            (1 - (1 + |(M - p.start.C) / (M - p.«end».C)|)⁻¹)))) :=
  PolarLuvPalette.map_C_triangular p M hM ha hb scalar hs hpc

/-- Witness for C1 (amended) on the palette `start.C = 10`, `end.C = 20`,
`Cmax = 30` at `scalar = 1/2`: the split point is `j = 1/3`, the input is in
the falling piece, and the chroma is `30 − 20·((1/2 − 1/3)/(2/3)) = 25`. -/
theorem claim_C1_witness :
    ((PolarLuvPalette.mk ⟨0, 10, 0⟩ ⟨0, 20, 0⟩ 1 1 (some 30)).map_scalar_to_color
      (1/2) false).C = .finite 25 := by
  obtain ⟨-, -, hC⟩ :=
    claim_C1 (PolarLuvPalette.mk ⟨0, 10, 0⟩ ⟨0, 20, 0⟩ 1 1 (some 30)) 30 rfl
      (by norm_num) (by norm_num) (1/2) (by norm_num) (by norm_num)
  rw [hC]
  have habs : |((30 : ℝ) - 10) / (30 - 20)| = 2 := by
    rw [show ((30 : ℝ) - 10) / (30 - 20) = 2 by norm_num]
    exact abs_two
  rw [if_neg ?hcond]
  case hcond =>
    rw [habs, Real.rpow_one]
    norm_num
  rw [habs, Real.rpow_one]
  norm_num

/-- C2 evaluated on the code: the validity test `j > 0.0 || j < 1.0` holds
for every real `j`, so it never forces the linear fallback; on the palette
`start.C = 2`, `end.C = 0`, `Cmax = 0` (mixing fraction `j = 0`, outside
`(0,1)`) at scalar `0` the code still takes the triangular branch and
produces NaN chroma, whereas the fallback `linear_trajectory` the claim
prescribes would produce the finite chroma `0`. -/
theorem claim_C2_code_behavior :
    (∀ x : ℝ, Fp.gt (.finite x) (.finite 0) ∨ Fp.lt (.finite x) (.finite 1)) ∧
    ((PolarLuvPalette.mk ⟨0, 2, 0⟩ ⟨0, 0, 0⟩ 1 1 (some 0)).map_scalar_to_color
      0 false).C = Fp.nan ∧
    PolarLuvPalette.linear_trajectory
      ((Fp.finite (0 : ℝ)).powf (.finite (1 : ℝ)))
      (.finite (2 : ℝ)) (.finite (0 : ℝ)) = .finite 0 ∧
    Fp.nan ≠ Fp.finite 0 := by
  refine ⟨fun x => ?_, ?_, ?_, fun h => Fp.noConfusion h⟩
  · rcases lt_or_le 0 x with h | h
    · exact Or.inl (by simpa using h)
    · exact Or.inr (by simp only [Fp.lt_finite]; linarith)
  · exact PolarLuvPalette.chroma_nan_of_Cmax_eq_end _ 0 rfl (by norm_num)
      (by norm_num) (by norm_num)
  · rw [Fp.powf_finite_of_nonneg le_rfl zero_le_one, Real.rpow_one]
    norm_num [PolarLuvPalette.linear_trajectory]

/-- Post-composing a monotone-or-antitone function with the affine map
`x ↦ c - k·x` preserves being monotone-or-antitone on `[0, 1]`. -/
theorem mono_or_anti_affine (c k : ℝ) (g : ℝ → ℝ)
    (hg : MonotoneOn g (Set.Icc (0:ℝ) 1) ∨ AntitoneOn g (Set.Icc (0:ℝ) 1)) :
    MonotoneOn (fun s => c - k * g s) (Set.Icc (0:ℝ) 1) ∨
    AntitoneOn (fun s => c - k * g s) (Set.Icc (0:ℝ) 1) := by
  rcases le_total 0 k with hk | hk <;> rcases hg with hg | hg
  · right
    intro a ha b hb hab
    have h := hg ha hb hab
    simp only
    nlinarith
  · left
    intro a ha b hb hab
    have h := hg ha hb hab
    simp only
    nlinarith
  · left
    intro a ha b hb hab
    have h := hg ha hb hab
    simp only
    nlinarith
  · right
    intro a ha b hb hab
    have h := hg ha hb hab
    simp only
    nlinarith

/-- The possibly-reversed scalar `i` is a monotone (reverse off) or antitone
(reverse on) function of the scalar. -/
theorem mono_or_anti_reversal (rev : Bool) :
    MonotoneOn (fun s : ℝ => if rev then 1 - s else s) (Set.Icc (0:ℝ) 1) ∨
    AntitoneOn (fun s : ℝ => if rev then 1 - s else s) (Set.Icc (0:ℝ) 1) := by
  cases rev
  · left
    intro a _ b _ hab
    simpa using hab
  · right
    intro a _ b _ hab
    simp only [if_true]
    linarith

/-- The power-law warp of the possibly-reversed scalar is monotone or
antitone on `[0, 1]` for a nonnegative exponent. -/
theorem mono_or_anti_reversal_rpow (rev : Bool) {e : ℝ} (he : 0 ≤ e) :
    MonotoneOn (fun s : ℝ => (if rev then 1 - s else s) ^ e) (Set.Icc (0:ℝ) 1) ∨
    AntitoneOn (fun s : ℝ => (if rev then 1 - s else s) ^ e) (Set.Icc (0:ℝ) 1) := by
  cases rev
  · left
    intro a ha b hb hab
    simp only [Bool.false_eq_true, if_false]
    exact Real.rpow_le_rpow ha.1 hab he
  · right
    intro a ha b hb hab
    simp only [if_true]
    exact Real.rpow_le_rpow (by linarith [hb.2]) (by linarith) he

/-- C6: for every palette with `start ≠ end` and nonnegative `powerL`, the
hue and the lightness produced by `map_scalar_to_color` are monotonic-or-
constant in the scalar on `[0, 1]`: the hue is the affine function
`end.h − (end.h − start.h)·i` of the (possibly reversed) scalar `i`, the
lightness is the same affine law applied to `i^powerL`, and each of these
functions of the scalar is monotone or antitone on `[0, 1]`. -/
theorem claim_C6 (p : PolarLuvPalette) (hpl : 0 ≤ p.powerL)
    (_hne : p.start ≠ p.«end») (rev : Bool) :
    (∀ s : ℝ, (p.map_scalar_to_color s rev).h =
      .finite (p.«end».h - (p.«end».h - p.start.h) * (if rev then 1 - s else s))) ∧
    (∀ s : ℝ, 0 ≤ s → s ≤ 1 → (p.map_scalar_to_color s rev).L =
      .finite (p.«end».L - (p.«end».L - p.start.L) *
        (if rev then 1 - s else s) ^ p.powerL)) ∧
    (MonotoneOn (fun s : ℝ => p.«end».h - (p.«end».h - p.start.h) *
        (if rev then 1 - s else s)) (Set.Icc (0:ℝ) 1) ∨
     AntitoneOn (fun s : ℝ => p.«end».h - (p.«end».h - p.start.h) *
        (if rev then 1 - s else s)) (Set.Icc (0:ℝ) 1)) ∧
    (MonotoneOn (fun s : ℝ => p.«end».L - (p.«end».L - p.start.L) *
        (if rev then 1 - s else s) ^ p.powerL) (Set.Icc (0:ℝ) 1) ∨
     AntitoneOn (fun s : ℝ => p.«end».L - (p.«end».L - p.start.L) *
        (if rev then 1 - s else s) ^ p.powerL) (Set.Icc (0:ℝ) 1)) := by
  refine ⟨fun s => PolarLuvPalette.map_h_eq p s rev,
          fun s h0 h1 => PolarLuvPalette.map_L_eq p s rev ?_ hpl,
          mono_or_anti_affine _ _ _ (mono_or_anti_reversal rev),
          mono_or_anti_affine _ _ _ (mono_or_anti_reversal_rpow rev hpl)⟩
  cases rev
  · simpa using h0
  · simp only [if_true]
    linarith

/-- Witness for C6 on the palette `start = (0, 0, 0)`, `end = (100, 50, 80)`
with `powerL = 1`, reverse off, at scalar `1/2`: the hue is
`100 − 100·(1/2) = 50`. -/
theorem claim_C6_witness :
    ((PolarLuvPalette.mk ⟨0, 0, 0⟩ ⟨100, 50, 80⟩ 1 1 none).map_scalar_to_color
      (1/2) false).h = .finite 50 := by
  have h :=
    (claim_C6 (PolarLuvPalette.mk ⟨0, 0, 0⟩ ⟨100, 50, 80⟩ 1 1 none)
      (by norm_num)
      (fun hcontra => by
        have := congrArg PolarLuv.h hcontra
        norm_num at this)
      false).1 (1/2)
  rw [h]
  norm_num

/-- C9: with `Cmax` equal to the end chroma but different from the start
chroma, the derived mixing fraction is `0`, it passes the (vacuous) validity
check, and any scalar whose warped value `i^powerC` is `0` (here scalar `0`
with `powerC > 0`, reverse off) drives the triangular branch through
`0.0/0.0`: the resulting chroma is NaN. -/
theorem claim_C9 (p : PolarLuvPalette) (M : ℝ) (hM : p.Cmax = some M)
    (hMe : M = p.«end».C) (hMa : M ≠ p.start.C) (hpc : 0 < p.powerC)
    (scalar : ℝ) (hs : scalar = 0) :
    (p.map_scalar_to_color scalar false).C = Fp.nan := by
  subst hs
  exact PolarLuvPalette.chroma_nan_of_Cmax_eq_end p M hM hMe hMa hpc

/-- Witness for C9 on the palette `start.C = 1`, `end.C = 0`, `Cmax = 0`,
`powerC = 1` at scalar `0`. -/
theorem claim_C9_witness :
    ((PolarLuvPalette.mk ⟨0, 1, 0⟩ ⟨0, 0, 0⟩ 1 1 (some 0)).map_scalar_to_color
      0 false).C = Fp.nan :=
  claim_C9 _ 0 rfl (by norm_num) (by norm_num) (by norm_num) 0 rfl

end Fraczal
